import Mathlib

/-!
Shallow embedding of the `pretty-bytes-enum` crate.

Floating-point (`f64`) quantities are idealized as exact rationals (`ℚ`);
every arithmetic step of the source is translated, and `f64::round`,
`f64::floor`, `f64::abs` become their exact counterparts.  The source's
`num.log(1024.).floor() as usize` on a nonnegative integer-valued float is
`Nat.log 1024` (for input `0` the logarithm is negative infinity, whose
floor converted with Rust's saturating float-to-int cast is `0`, matching
`Nat.log 1024 0 = 0`).  A separate extended type `FVal` models the IEEE
special values (NaN, infinities) for the claims that exercise them.
-/

/-- The base-10 unit symbols of `src/decimal.rs` (`enum ByteValues`). -/
inductive ByteValues where
  | B
  | KB
  | MB
  | GB
  | TB
  | PB
  | EB
deriving DecidableEq

/-- `ByteValues::UNITS` from `src/decimal.rs`: EB is the max that can be
represented with a u64. -/
def ByteValues.UNITS : List ByteValues :=
  [.B, .KB, .MB, .GB, .TB, .PB, .EB]

/-- Position of a decimal unit in `ByteValues::UNITS` (used to state
monotonicity of the chosen unit). -/
def ByteValues.index : ByteValues → ℕ
  | .B => 0
  | .KB => 1
  | .MB => 2
  | .GB => 3
  | .TB => 4
  | .PB => 5
  | .EB => 6

/-- `struct PrettyBytes` from `src/decimal.rs`: magnitude plus unit. -/
structure PrettyBytes where
  num : ℚ
  suffix : ByteValues
deriving DecidableEq

/-- Rust `f64::round`: nearest integer, half-way cases away from zero. -/
def rustRound (q : ℚ) : ℤ :=
  if q < 0 then -⌊-q + 1 / 2⌋ else ⌊q + 1 / 2⌋

/-- `round_float` from `src/util.rs`:
`(num * 10^round_places).round() / 10^round_places`. -/
def round_float (num : ℚ) (round_places : ℕ) : ℚ :=
  let exponent : ℚ := 10 ^ round_places
  ((rustRound (num * exponent) : ℤ) : ℚ) / exponent

/-- The exponent computed by `pretty_bytes` in `src/decimal.rs`:
`std::cmp::min((num.ilog10() / 3) as usize, ByteValues::UNITS.len() - 1)`
(`u64::ilog10` is `Nat.log 10` on nonzero input). -/
def decimalExponent (num : ℕ) : ℕ :=
  min (Nat.log 10 num / 3) (ByteValues.UNITS.length - 1)

/-- `pretty_bytes` from `src/decimal.rs`. -/
def pretty_bytes (num : ℕ) (round_places : Option ℕ) : PrettyBytes :=
  if num = 0 then
    { num := 0, suffix := ByteValues.B }
  else
    let exponent := decimalExponent num
    let q : ℚ := (num : ℚ) / 1000 ^ exponent
    let q : ℚ :=
      match round_places with
      | some places => round_float q places
      | none => q
    { num := q, suffix := ByteValues.UNITS.getD exponent ByteValues.B }

/-- `pretty_bytes_signed` from `src/decimal.rs`: capture the sign, feed
`num.unsigned_abs()` to `pretty_bytes`, then negate the magnitude if the
input was negative. -/
def pretty_bytes_signed (num : ℤ) (round_places : Option ℕ) : PrettyBytes :=
  let pb := pretty_bytes num.natAbs round_places
  if num < 0 then { pb with num := -pb.num } else pb

/-- The base-2 unit symbols of `src/binary.rs` (`enum ByteValuesBinary`). -/
inductive ByteValuesBinary where
  | B
  | KiB
  | MiB
  | GiB
  | TiB
  | PiB
  | EiB
  | ZiB
  | YiB
deriving DecidableEq

/-- `ByteValuesBinary::UNITS` from `src/binary.rs`. -/
def ByteValuesBinary.UNITS : List ByteValuesBinary :=
  [.B, .KiB, .MiB, .GiB, .TiB, .PiB, .EiB, .ZiB, .YiB]

/-- `struct PrettyBytesBinary` from `src/binary.rs`. -/
structure PrettyBytesBinary where
  num : ℚ
  suffix : ByteValuesBinary
deriving DecidableEq

/-- The exponent computed by `pretty_bytes_binary` in `src/binary.rs`:
`std::cmp::min(num.log(1024.).floor() as usize, ByteValuesBinary::UNITS.len() - 1)`
for a nonnegative integer-valued `num` (see module docstring for `num = 0`). -/
def binaryExponent (num : ℕ) : ℕ :=
  min (Nat.log 1024 num) (ByteValuesBinary.UNITS.length - 1)

/-- `pretty_bytes_binary` from `src/binary.rs`: floor the input, record the
sign, take the absolute value, scale by the clamped power of 1024,
optionally round, then reapply the sign at the end. -/
def pretty_bytes_binary (num : ℚ) (round_places : Option ℕ) : PrettyBytesBinary :=
  let n : ℤ := ⌊num⌋
  let a : ℕ := n.natAbs
  let exponent := binaryExponent a
  let q : ℚ := (a : ℚ) / 1024 ^ exponent
  let q : ℚ :=
    match round_places with
    | some places => round_float q places
    | none => q
  let q : ℚ := if n < 0 then -q else q
  { num := q, suffix := ByteValuesBinary.UNITS.getD exponent ByteValuesBinary.B }

/-- An extended value type for the IEEE special cases of `f64` that
`pretty_bytes_binary` can receive: NaN, signed infinities, and finite
values (idealized as exact rationals; the signed zero is not modelled). -/
inductive FVal where
  | nan : FVal
  | inf : Bool → FVal
  | fin : ℚ → FVal
deriving DecidableEq

/-- `PrettyBytesBinary` with the extended magnitude type. -/
structure PrettyBytesBinaryExt where
  num : FVal
  suffix : ByteValuesBinary
deriving DecidableEq

/-- Rust `f64::floor` on extended values: NaN and infinities map to
themselves. -/
def FVal.floorExt : FVal → FVal
  | .fin q => .fin ⌊q⌋
  | v => v

/-- Rust `f64::is_sign_negative`: `f64::NAN` has a positive sign bit. -/
def FVal.isSignNegative : FVal → Bool
  | .nan => false
  | .inf neg => neg
  | .fin q => decide (q < 0)

/-- Rust `f64::abs` on extended values. -/
def FVal.absExt : FVal → FVal
  | .nan => .nan
  | .inf _ => .inf false
  | .fin q => .fin |q|

/-- `std::cmp::min(num.log(1024.).floor() as usize, 8)` from `src/binary.rs`
on an extended value that is the absolute value of a floored input: the
logarithm of NaN is NaN, which Rust's saturating float-to-int cast sends
to `0`; the logarithm of `+inf` is `+inf`, which saturates to `usize::MAX`
and is then clamped to `8`; a finite input here is a nonnegative integer,
covered by `binaryExponent`. -/
def FVal.exponentExt : FVal → ℕ
  | .nan => min 0 8
  | .inf _ => 8
  | .fin q => binaryExponent ⌊q⌋.natAbs

/-- Division of an extended value by the positive finite scale `1024^e`:
NaN propagates, infinities keep their sign. -/
def FVal.divPow (v : FVal) (e : ℕ) : FVal :=
  match v with
  | .nan => .nan
  | .inf neg => .inf neg
  | .fin q => .fin (q / 1024 ^ e)

/-- Negation of an extended value (NaN stays NaN). -/
def FVal.negExt : FVal → FVal
  | .nan => .nan
  | .inf neg => .inf (!neg)
  | .fin q => .fin (-q)

/-- `round_float` on extended values: `10^places` is finite for every `u8`
argument, so NaN propagates and infinities round to themselves. -/
def round_float_ext (v : FVal) (round_places : ℕ) : FVal :=
  match v with
  | .nan => .nan
  | .inf neg => .inf neg
  | .fin q => .fin (round_float q round_places)

/-- `pretty_bytes_binary` from `src/binary.rs` on extended values,
following the source line by line. -/
def pretty_bytes_binary_ext (num : FVal) (round_places : Option ℕ) : PrettyBytesBinaryExt :=
  let num := num.floorExt
  let is_negative := num.isSignNegative
  let num := num.absExt
  let exponent := num.exponentExt
  let q := num.divPow exponent
  let q :=
    match round_places with
    | some places => round_float_ext q places
    | none => q
  let q := if is_negative then q.negExt else q
  { num := q, suffix := ByteValuesBinary.UNITS.getD exponent ByteValuesBinary.B }

/-! ## Helper lemmas -/

theorem rustRound_intCast (n : ℤ) : rustRound ((n : ℚ)) = n := by
  have hhalf : ⌊(1 / 2 : ℚ)⌋ = 0 := Int.floor_eq_iff.mpr (by norm_num)
  rw [rustRound]
  by_cases h : (n : ℚ) < 0
  · rw [if_pos h, show -(n : ℚ) = ((-n : ℤ) : ℚ) by push_cast; ring,
      Int.floor_int_add, hhalf]
    ring
  · rw [if_neg h, Int.floor_int_add, hhalf]
    ring

theorem round_float_def (x : ℚ) (p : ℕ) :
    round_float x p = ((rustRound (x * 10 ^ p) : ℤ) : ℚ) / 10 ^ p := rfl

/-- Rounding a value of the form `k / 10^p` to `q ≥ p` places returns it
unchanged. -/
theorem round_float_fixed (k : ℤ) (p q : ℕ) (hpq : p ≤ q) :
    round_float ((k : ℚ) / 10 ^ p) q = (k : ℚ) / 10 ^ p := by
  have h10 : (10 : ℚ) ^ p ≠ 0 := by positivity
  have hq : (10 : ℚ) ^ q = 10 ^ p * 10 ^ (q - p) := by
    rw [← pow_add]
    congr 1
    omega
  have hmul : (k : ℚ) / 10 ^ p * 10 ^ q = ((k * 10 ^ (q - p) : ℤ) : ℚ) := by
    rw [hq]
    push_cast
    field_simp
    ring
  rw [round_float_def, hmul, rustRound_intCast]
  push_cast
  rw [hq]
  field_simp
  ring

/-- `pretty_bytes_binary` on a natural-number input, with floor, sign and
absolute value discharged. -/
theorem pbb_natCast (m : ℕ) (r : Option ℕ) :
    pretty_bytes_binary (m : ℚ) r =
      { num :=
          match r with
          | some places => round_float ((m : ℚ) / 1024 ^ binaryExponent m) places
          | none => (m : ℚ) / 1024 ^ binaryExponent m,
        suffix := ByteValuesBinary.UNITS.getD (binaryExponent m) ByteValuesBinary.B } := by
  have h1 : ⌊(m : ℚ)⌋ = (m : ℤ) := Int.floor_natCast m
  have h2 : ¬((m : ℤ) < 0) := by omega
  simp [pretty_bytes_binary, h1, h2]

/-- Concrete evaluation used by C1: the input `-5.3` is floored to `-6`
before the absolute value is taken. -/
theorem pbb_at_neg53 : pretty_bytes_binary (-53 / 10) none = ⟨-6, ByteValuesBinary.B⟩ := by
  have hf : ⌊(-53 / 10 : ℚ)⌋ = -6 := Int.floor_eq_iff.mpr (by norm_num)
  have hl : Nat.log 1024 6 = 0 := Nat.log_of_lt (by norm_num)
  have he : binaryExponent 6 = 0 := by rw [binaryExponent, hl]; rfl
  simp [pretty_bytes_binary, hf, he, show ((-6 : ℤ)).natAbs = 6 from rfl]
  norm_num [ByteValuesBinary.UNITS]

/-- For every input the suffix chosen by `pretty_bytes` sits at position
`decimalExponent num` of the unit table (for `num = 0` both sides are `B`). -/
theorem pb_suffix_eq (num : ℕ) (r : Option ℕ) :
    (pretty_bytes num r).suffix = ByteValues.UNITS.getD (decimalExponent num) ByteValues.B := by
  by_cases h : num = 0
  · subst h
    simp [pretty_bytes, decimalExponent, Nat.log_zero_right]
    rfl
  · simp [pretty_bytes, h]

/-- The position of the unit returned for a bounded exponent. -/
theorem units_getD_index : ∀ i : ℕ, i < 7 → (ByteValues.UNITS.getD i ByteValues.B).index = i := by
  decide

theorem decimalExponent_lt (num : ℕ) : decimalExponent num < 7 := by
  rw [decimalExponent]
  simp [ByteValues.UNITS]

theorem binaryExponent_lt (num : ℕ) : binaryExponent num < 9 := by
  rw [binaryExponent]
  simp [ByteValuesBinary.UNITS]

theorem decimalExponent_mono {m n : ℕ} (h : m ≤ n) : decimalExponent m ≤ decimalExponent n := by
  have := @Nat.log_mono_right 10 m n h
  rw [decimalExponent, decimalExponent]
  omega

/-- Exponents of `u64` inputs never reach the clamp: `ilog10(n) ≤ 19` for
`n < 2^64`, so `ilog10(n) / 3 ≤ 6`. -/
theorem log10_u64_le (n : ℕ) (h : n < 2 ^ 64) : Nat.log 10 n / 3 ≤ 6 := by
  have h19 : Nat.log 10 n ≤ 19 := by
    rcases Nat.eq_zero_or_pos n with h0 | h0
    · simp [h0, Nat.log_zero_right]
    · have h20 : n < 10 ^ 20 := by
        calc n < 2 ^ 64 := h
          _ ≤ 10 ^ 20 := by norm_num
      have := (Nat.lt_pow_iff_log_lt (by norm_num) (by omega)).mp h20
      omega
  omega

/-- Magnitude bounds of `pretty_bytes` with no rounding, whenever the
exponent is not clamped. -/
theorem pb_num_bounds (n : ℕ) (h1 : n ≠ 0) (h6 : Nat.log 10 n / 3 ≤ 6) :
    1 ≤ (pretty_bytes n none).num ∧ (pretty_bytes n none).num < 1000 := by
  have hexp : decimalExponent n = Nat.log 10 n / 3 := by
    rw [decimalExponent]
    simp [ByteValues.UNITS]
    omega
  have hnum : (pretty_bytes n none).num = (n : ℚ) / 1000 ^ (Nat.log 10 n / 3) := by
    simp [pretty_bytes, h1, hexp]
  have hle : (1000 : ℕ) ^ (Nat.log 10 n / 3) ≤ n := by
    calc (1000 : ℕ) ^ (Nat.log 10 n / 3) = 10 ^ (3 * (Nat.log 10 n / 3)) := by
          rw [show (1000 : ℕ) = 10 ^ 3 by norm_num, ← pow_mul]
      _ ≤ 10 ^ Nat.log 10 n := Nat.pow_le_pow_right (by norm_num) (by omega)
      _ ≤ n := Nat.pow_log_le_self 10 h1
  have hlt : n < (1000 : ℕ) ^ (Nat.log 10 n / 3 + 1) := by
    calc n < 10 ^ (Nat.log 10 n + 1) := Nat.lt_pow_succ_log_self (by norm_num) n
      _ ≤ 10 ^ (3 * (Nat.log 10 n / 3 + 1)) := Nat.pow_le_pow_right (by norm_num) (by omega)
      _ = 1000 ^ (Nat.log 10 n / 3 + 1) := by
          rw [show (1000 : ℕ) = 10 ^ 3 by norm_num, ← pow_mul]
  have hleQ : ((1000 : ℚ)) ^ (Nat.log 10 n / 3) ≤ (n : ℚ) := by exact_mod_cast hle
  have hltQ : (n : ℚ) < 1000 ^ (Nat.log 10 n / 3 + 1) := by exact_mod_cast hlt
  constructor
  · rw [hnum, le_div_iff₀ (by positivity), one_mul]
    exact hleQ
  · rw [hnum, div_lt_iff₀ (by positivity)]
    calc (n : ℚ) < 1000 ^ (Nat.log 10 n / 3 + 1) := hltQ
      _ = 1000 * 1000 ^ (Nat.log 10 n / 3) := by ring

/-- Unfolding of `pretty_bytes` on a nonzero input with rounding. -/
theorem pb_def_some (n : ℕ) (h : n ≠ 0) (p : ℕ) :
    pretty_bytes n (some p) =
      { num := round_float ((n : ℚ) / 1000 ^ decimalExponent n) p,
        suffix := ByteValues.UNITS.getD (decimalExponent n) ByteValues.B } := by
  rw [pretty_bytes.eq_def, if_neg h]

/-- Unfolding of `pretty_bytes_binary` with no rounding. -/
theorem pbb_def_none (x : ℚ) :
    pretty_bytes_binary x none =
      { num :=
          if ⌊x⌋ < 0 then -((⌊x⌋.natAbs : ℚ) / 1024 ^ binaryExponent ⌊x⌋.natAbs)
          else (⌊x⌋.natAbs : ℚ) / 1024 ^ binaryExponent ⌊x⌋.natAbs,
        suffix := ByteValuesBinary.UNITS.getD (binaryExponent ⌊x⌋.natAbs) ByteValuesBinary.B } :=
  rfl

/-- Evaluation used by C2's counterexample: `pretty_bytes(999_999, Some(0))`
rounds the magnitude `999.999` up to `1000` under the unit `KB`. -/
theorem pb_at_999999 : pretty_bytes 999999 (some 0) = ⟨1000, ByteValues.KB⟩ := by
  have hlog : Nat.log 10 999999 = 5 :=
    Nat.log_eq_of_pow_le_of_lt_pow (by norm_num) (by norm_num)
  have hexp : decimalExponent 999999 = 1 := by
    rw [decimalExponent, hlog]
    rfl
  have harg : (((999999 : ℕ) : ℚ) / 1000 ^ 1) * 10 ^ 0 = 999999 / 1000 := by
    push_cast
    ring
  have hrr : rustRound ((999999 : ℚ) / 1000) = 1000 := by
    rw [rustRound, if_neg (by norm_num)]
    exact Int.floor_eq_iff.mpr (by norm_num)
  have hval : round_float (((999999 : ℕ) : ℚ) / 1000 ^ 1) 0 = 1000 := by
    rw [round_float_def, harg, hrr]
    norm_num
  rw [pb_def_some 999999 (by norm_num) 0, hexp, hval]
  rfl

/-! ## Claims -/

/-- Claim C1, counterexample: the binary formatter does not truncate the
fractional part of the absolute value; `pretty_bytes_binary(-5.3, None)`
has magnitude `-6`, not `-5`. -/
theorem C1_counterexample :
    (pretty_bytes_binary (-53 / 10) none).num = -6 ∧
    (pretty_bytes_binary (-53 / 10) none).num ≠ -5 := by
  rw [pbb_at_neg53]
  norm_num

/-- Claim C1, amended: the binary formatter floors its input toward
negative infinity before the sign is captured and the absolute value is
taken, so it operates on a byte count of `|floor(x)|` with the sign
reapplied at the end; in particular `pretty_bytes_binary(-5.3, None)` has
magnitude `-6`. -/
theorem C1_theorem :
    (∀ (x : ℚ) (r : Option ℕ),
      pretty_bytes_binary x r = pretty_bytes_binary ((⌊x⌋ : ℤ) : ℚ) r) ∧
    (pretty_bytes_binary (-53 / 10) none).num = -6 := by
  constructor
  · intro x r
    simp [pretty_bytes_binary, Int.floor_intCast]
  · rw [pbb_at_neg53]

/-- Claim C2, counterexample: for `n = 999_999` and `r = Some(0)` the
magnitude is exactly `1000`, outside `[1, 1000)`, while the unit `KB` is
not the maximum unit. -/
theorem C2_counterexample :
    (pretty_bytes 999999 (some 0)).num = 1000 ∧
    (pretty_bytes 999999 (some 0)).suffix = ByteValues.KB ∧
    ¬((pretty_bytes 999999 (some 0)).num < 1000) := by
  rw [pb_at_999999]
  norm_num

theorem pb_suffix_index (n : ℕ) (r : Option ℕ) :
    ((pretty_bytes n r).suffix).index = decimalExponent n := by
  rw [pb_suffix_eq]
  exact units_getD_index _ (decimalExponent_lt n)

/-- Claim C2, amended: for every rounding argument the unit returned by
`pretty_bytes` is monotonically non-decreasing in `n` (including `n = 0`),
and with no rounding requested the magnitude of every nonzero `u64` input
lies in `[1, 1000)`; rounding, however, can carry the magnitude up to
`1000` (see the counterexample), and `n = 0` yields magnitude `0`. -/
theorem C2_theorem :
    (∀ (r : Option ℕ) (m n : ℕ), m ≤ n →
      ((pretty_bytes m r).suffix).index ≤ ((pretty_bytes n r).suffix).index) ∧
    (∀ n : ℕ, 1 ≤ n → n < 2 ^ 64 →
      1 ≤ (pretty_bytes n none).num ∧ (pretty_bytes n none).num < 1000) := by
  constructor
  · intro r m n h
    rw [pb_suffix_index, pb_suffix_index]
    exact decimalExponent_mono h
  · intro n h1 h2
    exact pb_num_bounds n (by omega) (log10_u64_le n h2)

theorem C2_witness :
    ((pretty_bytes 5 none).suffix).index ≤ ((pretty_bytes 7 none).suffix).index ∧
    (1 ≤ (pretty_bytes 999 none).num ∧ (pretty_bytes 999 none).num < 1000) :=
  ⟨C2_theorem.1 none 5 7 (by norm_num), C2_theorem.2 999 (by norm_num) (by norm_num)⟩

/-- Claim C3: an input at or above `1024^9` is clamped to the largest unit
`YiB` with magnitude `x / 1024^8`, which is at least `1024`.  (Every `f64`
of that size is an integer, which the hypothesis `⌊x⌋ = x` records.) -/
theorem C3_theorem (x : ℚ) (h1 : (1024 : ℚ) ^ 9 ≤ x) (h2 : ((⌊x⌋ : ℤ) : ℚ) = x) :
    pretty_bytes_binary x none = ⟨x / 1024 ^ 8, ByteValuesBinary.YiB⟩ ∧
    1024 ≤ (pretty_bytes_binary x none).num := by
  have hn9 : (1024 : ℤ) ^ 9 ≤ ⌊x⌋ := Int.le_floor.mpr (by push_cast; exact h1)
  have h90 : (0 : ℤ) ≤ 1024 ^ 9 := by positivity
  have hx0 : 0 ≤ ⌊x⌋ := le_trans h90 hn9
  have haZ : ((⌊x⌋.natAbs : ℕ) : ℤ) = ⌊x⌋ := Int.natAbs_of_nonneg hx0
  have ha9 : (1024 : ℕ) ^ 9 ≤ ⌊x⌋.natAbs := by
    rw [← haZ] at hn9
    exact_mod_cast hn9
  have hane : ⌊x⌋.natAbs ≠ 0 := by
    have : 0 < (1024 : ℕ) ^ 9 := by positivity
    omega
  have hlog : 9 ≤ Nat.log 1024 ⌊x⌋.natAbs :=
    (Nat.pow_le_iff_le_log (by norm_num) hane).mp ha9
  have hexp : binaryExponent ⌊x⌋.natAbs = 8 := by
    rw [binaryExponent]
    simp [ByteValuesBinary.UNITS]
    omega
  have hcast : ((⌊x⌋.natAbs : ℕ) : ℚ) = x := by
    have h3 := congrArg (fun z : ℤ => (z : ℚ)) haZ
    simp only [Int.cast_natCast] at h3
    rw [h3, h2]
  have hneg : ¬(⌊x⌋ < 0) := by omega
  have heq : pretty_bytes_binary x none = ⟨x / 1024 ^ 8, ByteValuesBinary.YiB⟩ := by
    rw [pbb_def_none, hexp, if_neg hneg, hcast]
    rfl
  refine ⟨heq, ?_⟩
  rw [heq]
  show (1024 : ℚ) ≤ x / 1024 ^ 8
  rw [le_div_iff₀ (by positivity)]
  calc (1024 : ℚ) * 1024 ^ 8 = 1024 ^ 9 := by ring
    _ ≤ x := h1

theorem C3_witness :
    pretty_bytes_binary ((1024 : ℚ) ^ 9) none =
      ⟨(1024 : ℚ) ^ 9 / 1024 ^ 8, ByteValuesBinary.YiB⟩ ∧
    1024 ≤ (pretty_bytes_binary ((1024 : ℚ) ^ 9) none).num :=
  C3_theorem ((1024 : ℚ) ^ 9) le_rfl
    (by rw [show ((1024 : ℚ)) ^ 9 = (((1024 ^ 9 : ℤ)) : ℚ) by push_cast; ring,
      Int.floor_intCast])

/-- Claim C4: a zero input returns magnitude `0` with the smallest unit
`B` in both formatters, for every rounding argument. -/
theorem C4_theorem : ∀ r : Option ℕ,
    pretty_bytes 0 r = ⟨0, ByteValues.B⟩ ∧
    pretty_bytes_binary 0 r = ⟨0, ByteValuesBinary.B⟩ := by
  intro r
  have h0 : rustRound ((0 : ℚ)) = 0 := by simpa using rustRound_intCast 0
  constructor
  · simp [pretty_bytes]
  · cases r <;>
      simp [pretty_bytes_binary, binaryExponent, Nat.log_zero_right, round_float_def, h0,
        ByteValuesBinary.UNITS]

/-- Claim C5: exact powers of the base yield magnitude exactly `1` and the
k-th defined unit, for `1000^k` with `k ≤ 6` (decimal) and `1024^k` with
`k ≤ 8` (binary). -/
theorem C5_theorem :
    (∀ k : ℕ, k ≤ 6 → pretty_bytes (1000 ^ k) none =
      ⟨1, ByteValues.UNITS.getD k ByteValues.B⟩) ∧
    (∀ k : ℕ, k ≤ 8 → pretty_bytes_binary ((1024 : ℚ) ^ k) none =
      ⟨1, ByteValuesBinary.UNITS.getD k ByteValuesBinary.B⟩) := by
  constructor
  · intro k hk
    have hne : (1000 : ℕ) ^ k ≠ 0 := by positivity
    have hlog : Nat.log 10 (1000 ^ k) = 3 * k := by
      rw [show (1000 : ℕ) = 10 ^ 3 by norm_num, ← pow_mul, Nat.log_pow (by norm_num)]
    have hexp : decimalExponent (1000 ^ k) = k := by
      rw [decimalExponent, hlog]
      simp [ByteValues.UNITS]
      omega
    have hone : ((1000 : ℚ)) ^ k / 1000 ^ k = 1 := div_self (by positivity)
    simp [pretty_bytes, hne, hexp, hone]
  · intro k hk
    have hcast : ((1024 : ℚ)) ^ k = ((1024 ^ k : ℕ) : ℚ) := by push_cast; ring
    have hexp : binaryExponent (1024 ^ k) = k := by
      rw [binaryExponent, Nat.log_pow (by norm_num)]
      simp [ByteValuesBinary.UNITS]
      omega
    have hone : ((1024 : ℚ)) ^ k / 1024 ^ k = 1 := div_self (by positivity)
    rw [hcast, pbb_natCast, hexp]
    simp [hone]

theorem C5_witness :
    pretty_bytes (1000 ^ 2) none = ⟨1, ByteValues.UNITS.getD 2 ByteValues.B⟩ ∧
    pretty_bytes_binary ((1024 : ℚ) ^ 2) none =
      ⟨1, ByteValuesBinary.UNITS.getD 2 ByteValuesBinary.B⟩ :=
  ⟨C5_theorem.1 2 (by norm_num), C5_theorem.2 2 (by norm_num)⟩

/-- Claim C6: for every positive `n` and rounding argument, negating the
input negates the magnitude and keeps the unit. -/
theorem C6_theorem : ∀ (n : ℤ) (r : Option ℕ), 0 < n →
    (pretty_bytes_signed (-n) r).num = -((pretty_bytes_signed n r).num) ∧
    (pretty_bytes_signed (-n) r).suffix = (pretty_bytes_signed n r).suffix := by
  intro n r hn
  have h1 : -n < 0 := by omega
  have h2 : ¬(n < 0) := by omega
  simp [pretty_bytes_signed, Int.natAbs_neg, h1, h2]

theorem C6_witness :
    (pretty_bytes_signed (-2000000) none).num = -((pretty_bytes_signed 2000000 none).num) ∧
    (pretty_bytes_signed (-2000000) none).suffix = (pretty_bytes_signed 2000000 none).suffix :=
  C6_theorem 2000000 none (by norm_num)

/-- Claim C7: rounding an already-rounded value to the same or more
decimal places returns the same value. -/
theorem C7_theorem : ∀ (x : ℚ) (p q : ℕ), p ≤ q →
    round_float (round_float x p) p = round_float x p ∧
    round_float (round_float x p) q = round_float x p := by
  intro x p q hpq
  constructor
  · rw [round_float_def x p, round_float_fixed _ p p le_rfl]
  · rw [round_float_def x p, round_float_fixed _ p q hpq]

theorem C7_witness :
    round_float (round_float (1 / 4) 1) 1 = round_float (1 / 4) 1 ∧
    round_float (round_float (1 / 4) 1) 2 = round_float (1 / 4) 1 :=
  C7_theorem (1 / 4) 1 2 (by norm_num)

/-- Claim C8: the functions are total on their declared domains — the
exponent always indexes inside the unit tables, `unsigned_abs` of every
`i64` (including `i64::MIN`) fits in a `u64`, and `pretty_bytes_signed`
yields a defined result at `i64::MIN`. -/
theorem C8_theorem :
    (∀ n : ℕ, decimalExponent n < ByteValues.UNITS.length) ∧
    (∀ m : ℕ, binaryExponent m < ByteValuesBinary.UNITS.length) ∧
    (∀ z : ℤ, -(2 ^ 63) ≤ z → z < 2 ^ 63 → z.natAbs < 2 ^ 64) ∧
    (pretty_bytes_signed (-(2 ^ 63)) none).suffix = ByteValues.EB := by
  refine ⟨fun n => ?_, fun m => ?_, fun z hz1 hz2 => ?_, ?_⟩
  · simpa [ByteValues.UNITS] using decimalExponent_lt n
  · simpa [ByteValuesBinary.UNITS] using binaryExponent_lt m
  · rw [show ((2 : ℤ)) ^ 63 = 9223372036854775808 by norm_num] at hz1 hz2
    rw [show ((2 : ℕ)) ^ 64 = 18446744073709551616 by norm_num]
    omega
  · have hab : ((-(2 ^ 63) : ℤ)).natAbs = 9223372036854775808 := by
      rw [Int.natAbs_neg, show ((2 : ℤ)) ^ 63 = 9223372036854775808 by norm_num]
      rfl
    have hlog : Nat.log 10 9223372036854775808 = 18 :=
      Nat.log_eq_of_pow_le_of_lt_pow (by norm_num) (by norm_num)
    have hexp : decimalExponent 9223372036854775808 = 6 := by
      rw [decimalExponent, hlog]
      rfl
    simp [pretty_bytes_signed, show (-(2 ^ 63 : ℤ)) < 0 by norm_num, hab,
      pb_suffix_eq, hexp, ByteValues.UNITS]

theorem C8_witness : ((-(2 ^ 63) : ℤ)).natAbs < 2 ^ 64 :=
  C8_theorem.2.2.1 (-(2 ^ 63)) (by norm_num) (by norm_num)

/-- Claim C9: for every nonzero `u64` input the clamp in the decimal
formatter is inert — `ilog10(n) / 3 ≤ 6`, the `min` never truncates — and
with no rounding the magnitude is strictly below `1000`. -/
theorem C9_theorem (n : ℕ) (h1 : 1 ≤ n) (h2 : n < 2 ^ 64) :
    Nat.log 10 n / 3 ≤ 6 ∧ decimalExponent n = Nat.log 10 n / 3 ∧
    (pretty_bytes n none).num < 1000 := by
  have h6 := log10_u64_le n h2
  refine ⟨h6, ?_, (pb_num_bounds n (by omega) h6).2⟩
  rw [decimalExponent]
  simp [ByteValues.UNITS]
  omega

theorem C9_witness :
    Nat.log 10 12345 / 3 ≤ 6 ∧ decimalExponent 12345 = Nat.log 10 12345 / 3 ∧
    (pretty_bytes 12345 none).num < 1000 :=
  C9_theorem 12345 (by norm_num) (by norm_num)

/-- Claim C10: the IEEE special values do not panic and map to defined
results — NaN yields magnitude NaN with unit `B` (its logarithm is NaN,
which floors to NaN and saturates to index `0`), and `+inf` yields
magnitude `+inf` with the largest unit `YiB`. -/
theorem C10_theorem :
    pretty_bytes_binary_ext FVal.nan none = ⟨FVal.nan, ByteValuesBinary.B⟩ ∧
    pretty_bytes_binary_ext (FVal.inf false) none = ⟨FVal.inf false, ByteValuesBinary.YiB⟩ :=
  ⟨rfl, rfl⟩
